import Mathlib

/-!
Shallow embedding of `replace_atoms.py`: a tool that reads a fixed-column
molecular coordinate file (gro format), relabels a random subset of atoms
matching a residue name, reorders them to follow the first matching atom,
renumbers residue and atom identifiers, and writes the file back.

Python strings are modelled as `List Char`, Python `int` as `Int`, and
coordinate values as exact decimals (`Dec`, the numeric value carried by a
float column; the decimal grammar modelled is the plain `digits[.digits]`
form that fixed-column files contain, without exponent notation).
Exceptions are modelled with `Option`/`Except`.
-/

namespace ReplaceAtoms

/-- One decimal digit as a character: `digitChar d` is the character for `d`. -/
def digitChar (d : Nat) : Char := Char.ofNat (48 + d)

/-- Numeric value of a list of decimal digit characters, most significant first. -/
def digitsVal (l : List Char) : Nat := l.foldl (fun acc c => acc * 10 + (c.toNat - 48)) 0

/-- Python `str.strip()`: remove whitespace from both ends. -/
def pyStrip (l : List Char) : List Char :=
  ((l.dropWhile Char.isWhitespace).reverse.dropWhile Char.isWhitespace).reverse

/-- Parse a non-empty all-digit string (the digit part of Python `int(s)`). -/
def parseDigits (l : List Char) : Option Nat :=
  if l ≠ [] ∧ l.all Char.isDigit then some (digitsVal l) else none

/-- Python `int(s)` applied to an already-stripped string: optional sign, then
one or more decimal digits (this is the `int` conversion in `GRO_FIELDS`). -/
def pyParseInt (l : List Char) : Option Int :=
  if l.head? = some '-' then (parseDigits l.tail).map (fun n => -Int.ofNat n)
  else if l.head? = some '+' then (parseDigits l.tail).map Int.ofNat
  else (parseDigits l).map Int.ofNat

/-- An exact decimal number `num / 10 ^ shift`: the numeric value carried by a
float column.  The program never computes with coordinates — it only parses,
carries and re-formats them — so an exact decimal carrier is value-faithful. -/
structure Dec where
  num : Int
  shift : Nat
deriving DecidableEq

/-- The unsigned part of Python `float(s)` in its plain decimal form:
`digits`, `digits.digits`, `digits.` or `.digits`. -/
def parseUFloat (l : List Char) : Option Dec :=
  let ip := l.takeWhile (fun c => decide (c ≠ '.'))
  let rest := l.dropWhile (fun c => decide (c ≠ '.'))
  if ip.all Char.isDigit then
    match rest with
    | [] => if ip = [] then none else some { num := (digitsVal ip : Int), shift := 0 }
    | _ :: fp =>
      if fp.all Char.isDigit ∧ (ip ≠ [] ∨ fp ≠ []) then
        some { num := (digitsVal ip * 10 ^ fp.length + digitsVal fp : Int), shift := fp.length }
      else none
  else none

/-- Python `float(s)` on an already-stripped string (the `float` conversion in
`GRO_FIELDS`): optional sign followed by an unsigned decimal number. -/
def pyParseFloat (l : List Char) : Option Dec :=
  if l.head? = some '-' then (parseUFloat l.tail).map (fun d => { d with num := -d.num })
  else if l.head? = some '+' then parseUFloat l.tail
  else parseUFloat l

/-- Digit rendering with explicit fuel (the fuel only has to dominate the
number of digits; `natToChars` supplies `n + 1`). -/
def natToCharsAux : Nat → Nat → List Char → List Char
  | 0, _, acc => acc
  | fuel + 1, n, acc =>
    if n < 10 then digitChar n :: acc
    else natToCharsAux fuel (n / 10) (digitChar (n % 10) :: acc)

/-- Python `str(n)` for a natural number. -/
def natToChars (n : Nat) : List Char := natToCharsAux (n + 1) n []

/-- Python `str(i)` for an integer. -/
def intToChars (i : Int) : List Char :=
  if i < 0 then '-' :: natToChars i.natAbs else natToChars i.toNat

/-- Python `'{:>w}'.format(s)`: right-justify in a field of width `w`
(no truncation when `s` is longer than `w`). -/
def rightJust (w : Nat) (s : List Char) : List Char := List.replicate (w - s.length) ' ' ++ s

/-- Python `'{:<w}'.format(s)`: left-justify in a field of width `w`. -/
def leftJust (w : Nat) (s : List Char) : List Char := s ++ List.replicate (w - s.length) ' '

/-- Three fractional digits, zero-padded on the left. -/
def pad3 (n : Nat) : List Char := List.replicate (3 - (natToChars n).length) '0' ++ natToChars n

/-- The body of Python `'{:8.3f}'.format(v)` before padding: the value rounded
to three decimal places rendered as `sign digits . 3 digits`.  The embedding
carries the exact decimal value, so the rounding is exact round-to-nearest
(half up) on it; the claims only use values with at most three decimal places,
where no rounding happens at all. -/
def fixed3 (d : Dec) : List Char :=
  let m : Int := Int.fdiv (2 * (d.num * 1000) + 10 ^ d.shift) (2 * 10 ^ d.shift)
  (if m < 0 then ['-'] else []) ++ natToChars (m.natAbs / 1000) ++ '.' :: pad3 (m.natAbs % 1000)

/-- One atom record: the seven fields of `GRO_FIELDS` (the Python dict value). -/
structure Atom where
  resid : Int
  resname : List Char
  atom_name : List Char
  atomid : Int
  x : Dec
  y : Dec
  z : Dec
deriving DecidableEq

instance : Inhabited Atom := ⟨⟨0, [], [], 0, ⟨0, 0⟩, ⟨0, 0⟩, ⟨0, 0⟩⟩⟩

/-- Python slicing `l[a:b]` for `a ≤ b` (out-of-range slices are safely clipped,
exactly as in Python). -/
def slice (a b : Nat) (l : List Char) : List Char := (l.drop a).take (b - a)

/-- Decoding of one atom line, as performed inside `read_gro`'s loop:
for each field of `GRO_FIELDS`, slice the column span out of the line, strip
it, and convert with the field's type; `none` models the `ValueError` that
`int`/`float` raise on non-numeric text. -/
def decode_atom (l : List Char) : Option Atom := do
  let resid ← pyParseInt (pyStrip (slice 0 5 l))
  let resname := pyStrip (slice 5 10 l)
  let atom_name := pyStrip (slice 10 15 l)
  let atomid ← pyParseInt (pyStrip (slice 15 20 l))
  let x ← pyParseFloat (pyStrip (slice 20 28 l))
  let y ← pyParseFloat (pyStrip (slice 28 36 l))
  let z ← pyParseFloat (pyStrip (slice 36 44 l))
  pure { resid := resid, resname := resname, atom_name := atom_name, atomid := atomid,
         x := x, y := y, z := z }

/-- Encoding of one atom line: `write_gro`'s format string
`'{resid:>5}{resname:<5}{atom_name:>5}{atomid:>5}{x:8.3f}{y:8.3f}{z:8.3f}\n'`. -/
def encode_atom (a : Atom) : List Char :=
  rightJust 5 (intToChars a.resid) ++ leftJust 5 a.resname ++ rightJust 5 a.atom_name ++
  rightJust 5 (intToChars a.atomid) ++ rightJust 8 (fixed3 a.x) ++ rightJust 8 (fixed3 a.y) ++
  rightJust 8 (fixed3 a.z) ++ ['\n']

/-- `stop_at_empty_line`: yield lines until the first line that is empty after
stripping. -/
def stop_at_empty_line (lines : List (List Char)) : List (List Char) :=
  lines.takeWhile (fun l => decide (pyStrip l ≠ []))

/-- The two ways `read_gro` can fail: `formatError` models the `FormatError`
raised on a decoding failure, `stopIteration` models the `StopIteration`
raised by `next` when the input has fewer than three lines. -/
inductive ReadError
  | formatError
  | stopIteration
deriving DecidableEq

/-- The reading loop of `read_gro`: act on the previous line, pull the next
one; each pulled line causes the previous line to be decoded and appended. -/
def readAtomsLoop : List Char → List (List Char) → Except ReadError (List Atom × List Char)
  | prev, [] => .ok ([], prev)
  | prev, line :: rest =>
    match decode_atom prev with
    | some a =>
      match readAtomsLoop line rest with
      | .ok (ats, box) => .ok (a :: ats, box)
      | .error e => .error e
    | none => .error .formatError

/-- `read_gro`: line 1 is the title, line 2 is discarded, then the loop decodes
each previous line while `stop_at_empty_line` still yields lines; the last
line consumed becomes the box/footer.  Fewer than three lines exhaust the
iterator at a bare `next`, which surfaces as `StopIteration`. -/
def read_gro (lines : List (List Char)) : Except ReadError (List Char × List Atom × List Char) :=
  match lines with
  | title :: _count :: first :: rest =>
    match readAtomsLoop first (stop_at_empty_line rest) with
    | .ok (atoms, box) => .ok (title, atoms, box)
    | .error e => .error e
  | _ => .error .stopIteration

/-- `write_gro`: the title, the atom count, one encoded line per atom, the box. -/
def write_gro (title : List Char) (atoms : List Atom) (box : List Char) : List (List Char) :=
  title :: (natToChars atoms.length ++ ['\n']) :: (atoms.map encode_atom ++ [box])

/-- `select`: indices `i` with `atoms[i][key] == value`, in ascending order
(`key` is modelled as a field accessor on the record). -/
def select (atoms : List Atom) (f : Atom → List Char) (value : List Char) : List Nat :=
  (List.range atoms.length).filter (fun i => decide (f (atoms.getD i default) = value))

/-- Apply `f` to the element at one index (in-place dict update, functionally). -/
def modifyIdx (f : Atom → Atom) : Nat → List Atom → List Atom
  | _, [] => []
  | 0, a :: rest => f a :: rest
  | n + 1, a :: rest => a :: modifyIdx f n rest

/-- `alter_atoms`: overwrite `resname` and `atom_name` at each given index.
The in-place Python mutation is modelled functionally; indices are meaningful
when they are in range, which is the only way the program calls it. -/
def alter_atoms (atoms : List Atom) (indices : List Nat) (resname atom_name : List Char) :
    List Atom :=
  indices.foldl
    (fun ats i => modifyIdx (fun a => { a with resname := resname, atom_name := atom_name }) i ats)
    atoms

/-- `reorder`: indices below `index` not in `insertions`, then `insertions` in
the given order, then indices from `index` up not in `insertions`
(`xrange(0, index)` and `xrange(index, length)` of the source). -/
def reorder (length : Nat) (insertions : List Nat) (index : Nat) : List Nat :=
  (List.range index).filter (fun i => decide (i ∉ insertions)) ++ insertions ++
    (List.range' index (length - index)).filter (fun i => decide (i ∉ insertions))

/-- `iter_order`: the atoms listed in the order given by `indices`. -/
def iter_order (atoms : List Atom) (indices : List Nat) : List Atom :=
  indices.map (fun i => atoms.getD i default)

/-- `renumber`'s loop state: the running residue counter, the previous source
`resid` tracker, and the 1-based position of the next atom. -/
def renumberAux : Nat → Int → Nat → List Atom → List Atom
  | _, _, _, [] => []
  | resid, prev, pos, a :: rest =>
    let resid' := if a.resid ≠ prev then resid + 1 else resid
    let prev' := if a.resid ≠ prev then a.resid else prev
    { a with resid := ((resid' % 100000 : Nat) : Int), atomid := ((pos % 100000 : Nat) : Int) }
      :: renumberAux resid' prev' (pos + 1) rest

/-- `renumber`: counter and tracker both start at 0; positions start at 1. -/
def renumber (atoms : List Atom) : List Atom := renumberAux 0 0 1 atoms

/-- The counter sequence produced by `renumber`'s residue logic, on the list of
original `resid` values (specification-level transcription of the loop,
used to state what `renumber` writes into the `resid` field). -/
def renumResids : Nat → Int → List Int → List Nat
  | _, _, [] => []
  | c, prev, r :: rest =>
    let c' := if r ≠ prev then c + 1 else c
    c' :: renumResids c' r rest

/-- Modelled from the spec: the Sampler (`random.sample`, not part of this
repository's source).  `sampleSpec candidates n out` holds exactly of the
lists `out` that `sample(candidates, n)` can return: `n` distinct elements,
each drawn from `candidates`. -/
def sampleSpec (candidates : List Nat) (n : Nat) (out : List Nat) : Prop :=
  out.length = n ∧ out.Nodup ∧ ∀ i ∈ out, i ∈ candidates

/-- The two `ValueError` sites of `replace_atom`: `sampleError` is the error
`random.sample` raises when the request exceeds the population,
`minEmptyError` is the error `min` raises on an empty candidate list. -/
inductive ReplaceError
  | sampleError
  | minEmptyError
deriving DecidableEq

/-- `replace_atom`: select the candidates, sample `nsub` of them (the sampled
outcome is passed in as `pick`; the size check is the one `random.sample`
performs), relabel them, reorder after the least candidate, and renumber. -/
def replace_atom (atoms : List Atom) (f : Atom → List Char)
    (value resname atom_name : List Char) (nsub : Nat) (pick : List Nat) :
    Except ReplaceError (List Atom) :=
  let candidates := select atoms f value
  if nsub ≤ candidates.length then
    let atoms' := alter_atoms atoms pick resname atom_name
    match candidates.min? with
    | some anchor => .ok (renumber (iter_order atoms' (reorder atoms'.length pick anchor)))
    | none => .error .minEmptyError
  else .error .sampleError

/-- The data path of `cli_main`: read, replace (with the given sampled outcome),
write; `none` models an aborted run. -/
def pipeline (input : List (List Char)) (oresname nresname natname : List Char)
    (natoms : Nat) (pick : List Nat) : Option (List (List Char)) :=
  match read_gro input with
  | .error _ => none
  | .ok (title, atoms, box) =>
    match replace_atom atoms (fun a => a.resname) oresname nresname natname natoms pick with
    | .error _ => none
    | .ok modified => some (write_gro title modified box)

instance {ε α : Type} [DecidableEq ε] [DecidableEq α] : DecidableEq (Except ε α)
  | .error e, .error f =>
    if h : e = f then isTrue (h ▸ rfl) else isFalse (fun he => h (Except.error.inj he))
  | .error _, .ok _ => isFalse (fun h => Except.noConfusion h)
  | .ok _, .error _ => isFalse (fun h => Except.noConfusion h)
  | .ok a, .ok b =>
    if h : a = b then isTrue (h ▸ rfl) else isFalse (fun he => h (Except.ok.inj he))

/-- Canonical fixed-width form of one atom record: each numeric field's
rendering fits its column and the coordinates carry exactly three decimal
places; the string fields are already stripped and fit their columns.
Lines in canonical fixed-width form are exactly the encodings of such
records. -/
def wellFormedAtom (r : Atom) : Prop :=
  (intToChars r.resid).length ≤ 5 ∧
  pyStrip r.resname = r.resname ∧ r.resname.length ≤ 5 ∧
  pyStrip r.atom_name = r.atom_name ∧ r.atom_name.length ≤ 5 ∧
  (intToChars r.atomid).length ≤ 5 ∧
  r.x.shift = 3 ∧ (fixed3 r.x).length ≤ 8 ∧
  r.y.shift = 3 ∧ (fixed3 r.y).length ≤ 8 ∧
  r.z.shift = 3 ∧ (fixed3 r.z).length ≤ 8

instance (r : Atom) : Decidable (wellFormedAtom r) := by
  unfold wellFormedAtom; infer_instance

/-- A canonical water-oxygen line, used as a concrete witness input. -/
def solLine1 : List Char := "    1SOL     OW    1   0.000   0.000   0.000\n".toList

/-- A canonical water-hydrogen line, used as a concrete witness input. -/
def solLine2 : List Char := "    1SOL    HW1    2   0.100   0.000   0.000\n".toList

/-- A second canonical water-hydrogen line, used as a concrete witness input. -/
def solLine3 : List Char := "    1SOL    HW2    3   0.000   0.100   0.000\n".toList

/-- The three-atom water input file of the end-to-end scenario. -/
def inputC3 : List (List Char) :=
  ["Water\n".toList, "3\n".toList, solLine1, solLine2, solLine3,
   "   1.86206   1.86206   1.86206\n".toList]

/-- The three decoded water atoms of the end-to-end scenario. -/
def atomsC3 : List Atom :=
  [⟨1, "SOL".toList, "OW".toList, 1, ⟨0, 3⟩, ⟨0, 3⟩, ⟨0, 3⟩⟩,
   ⟨1, "SOL".toList, "HW1".toList, 2, ⟨100, 3⟩, ⟨0, 3⟩, ⟨0, 3⟩⟩,
   ⟨1, "SOL".toList, "HW2".toList, 3, ⟨0, 3⟩, ⟨100, 3⟩, ⟨0, 3⟩⟩]

/-! ### Character and digit rendering facts -/

theorem digitChar_toNat {d : Nat} (h : d < 10) : (digitChar d).toNat = 48 + d := by
  interval_cases d <;> decide

theorem digitChar_isDigit {d : Nat} (h : d < 10) : (digitChar d).isDigit = true := by
  interval_cases d <;> decide

theorem not_ws_of_isDigit {c : Char} (h : c.isDigit = true) : c.isWhitespace = false := by
  by_contra hcon
  rw [Bool.not_eq_false] at hcon
  simp only [Char.isWhitespace, Bool.or_eq_true, decide_eq_true_eq] at hcon
  rcases hcon with ((h1 | h1) | h1) | h1 <;> subst h1 <;> exact absurd h (by decide)

theorem ne_signs_of_isDigit {c : Char} (h : c.isDigit = true) :
    c ≠ '-' ∧ c ≠ '+' ∧ c ≠ '.' := by
  refine ⟨?_, ?_, ?_⟩ <;> rintro rfl <;> exact absurd h (by decide)

theorem digitsVal_append_single (l : List Char) (c : Char) :
    digitsVal (l ++ [c]) = digitsVal l * 10 + (c.toNat - 48) := by
  simp [digitsVal, List.foldl_append]

theorem foldl_digits_zeros (k : Nat) :
    List.foldl (fun acc c => acc * 10 + (c.toNat - 48)) 0 (List.replicate k '0') = 0 := by
  induction k with
  | zero => rfl
  | succ n ih => simpa [List.replicate_succ] using ih

theorem digitsVal_zeros (k : Nat) (l : List Char) :
    digitsVal (List.replicate k '0' ++ l) = digitsVal l := by
  simp [digitsVal, List.foldl_append, foldl_digits_zeros]

theorem natToCharsAux_spec :
    ∀ (fuel n : Nat) (acc : List Char), 0 < fuel → n < 10 ^ fuel →
      ∃ ds : List Char, natToCharsAux fuel n acc = ds ++ acc ∧ ds ≠ [] ∧
        (∀ c ∈ ds, c.isDigit = true) ∧ digitsVal ds = n ∧
        ∀ k, 0 < k → n < 10 ^ k → ds.length ≤ k := by
  intro fuel
  induction fuel with
  | zero => intro n acc h; omega
  | succ f ih =>
    intro n acc _ hlt
    by_cases h10 : n < 10
    · refine ⟨[digitChar n], by simp [natToCharsAux, h10], by simp, ?_, ?_, ?_⟩
      · intro c hc
        rw [List.mem_singleton] at hc
        subst hc
        exact digitChar_isDigit h10
      · simp [digitsVal, digitChar_toNat h10]
      · intro k hk _
        simpa using hk
    · have hf : 0 < f := by
        rcases Nat.eq_zero_or_pos f with h0 | h0
        · subst h0; simp at hlt; omega
        · exact h0
      have hdiv : n / 10 < 10 ^ f := by
        rw [Nat.div_lt_iff_lt_mul (by norm_num)]
        calc n < 10 ^ (f + 1) := hlt
          _ = 10 ^ f * 10 := by ring
      obtain ⟨ds, heq, hne, hdig, hval, hlen⟩ := ih (n / 10) (digitChar (n % 10) :: acc) hf hdiv
      have hmod : n % 10 < 10 := Nat.mod_lt _ (by norm_num)
      refine ⟨ds ++ [digitChar (n % 10)], ?_, by simp, ?_, ?_, ?_⟩
      · rw [natToCharsAux, if_neg h10, heq]
        simp
      · intro c hc
        rcases List.mem_append.mp hc with h1 | h1
        · exact hdig c h1
        · rw [List.mem_singleton] at h1
          subst h1
          exact digitChar_isDigit hmod
      · rw [digitsVal_append_single, hval, digitChar_toNat hmod]
        have := Nat.div_add_mod n 10
        omega
      · intro k hk hkn
        have hk2 : 2 ≤ k := by
          by_contra hcon
          have hk1 : k = 1 := by omega
          subst hk1
          simp at hkn
          omega
        have hdk : n / 10 < 10 ^ (k - 1) := by
          rw [Nat.div_lt_iff_lt_mul (by norm_num)]
          calc n < 10 ^ k := hkn
            _ = 10 ^ (k - 1) * 10 := by
              rw [← pow_succ]
              congr 1
              omega
        have := hlen (k - 1) (by omega) hdk
        simp only [List.length_append, List.length_singleton]
        omega

theorem natToChars_spec (n : Nat) :
    natToChars n ≠ [] ∧ (∀ c ∈ natToChars n, c.isDigit = true) ∧
      digitsVal (natToChars n) = n ∧
      ∀ k, 0 < k → n < 10 ^ k → (natToChars n).length ≤ k := by
  have hn : n < 10 ^ (n + 1) := by
    calc n < 2 ^ n := Nat.lt_two_pow n
      _ ≤ 10 ^ n := Nat.pow_le_pow_left (by norm_num) n
      _ ≤ 10 ^ (n + 1) := Nat.pow_le_pow_right (by norm_num) (by omega)
  obtain ⟨ds, heq, hne, hdig, hval, hlen⟩ := natToCharsAux_spec (n + 1) n [] (by omega) hn
  rw [List.append_nil] at heq
  rw [natToChars, heq]
  exact ⟨hne, hdig, hval, hlen⟩

theorem intToChars_nonneg {i : Int} (h : 0 ≤ i) : intToChars i = natToChars i.toNat := by
  rw [intToChars, if_neg (by omega)]

theorem intToChars_no_ws (i : Int) : ∀ c ∈ intToChars i, c.isWhitespace = false := by
  intro c hc
  rw [intToChars] at hc
  by_cases h : i < 0
  · rw [if_pos h] at hc
    rcases List.mem_cons.mp hc with h1 | h1
    · subst h1; decide
    · exact not_ws_of_isDigit ((natToChars_spec _).2.1 c h1)
  · rw [if_neg h] at hc
    exact not_ws_of_isDigit ((natToChars_spec _).2.1 c hc)

/-! ### Stripping and justification -/

theorem dropWhile_eq_self_of_no_ws {l : List Char} (h : ∀ c ∈ l, c.isWhitespace = false) :
    l.dropWhile Char.isWhitespace = l := by
  cases l with
  | nil => rfl
  | cons a l =>
    exact List.dropWhile_cons_of_neg (by rw [h a (List.mem_cons_self a l)]; exact Bool.false_ne_true)

theorem pyStrip_eq_self_of_no_ws {l : List Char} (h : ∀ c ∈ l, c.isWhitespace = false) :
    pyStrip l = l := by
  rw [pyStrip, dropWhile_eq_self_of_no_ws h,
    dropWhile_eq_self_of_no_ws (fun c hc => h c (List.mem_reverse.mp hc)), List.reverse_reverse]

theorem replicate_space_ws (k : Nat) :
    ∀ c ∈ List.replicate k ' ', Char.isWhitespace c = true := by
  intro c hc
  rw [List.eq_of_mem_replicate hc]
  decide

theorem pyStrip_stripped_parts {s : List Char} (h : pyStrip s = s) :
    s.dropWhile Char.isWhitespace = s ∧ s.reverse.dropWhile Char.isWhitespace = s.reverse := by
  have h1 : (s.dropWhile Char.isWhitespace).length ≤ s.length :=
    (List.dropWhile_sublist _).length_le
  have h2 : ((s.dropWhile Char.isWhitespace).reverse.dropWhile Char.isWhitespace).length ≤
      (s.dropWhile Char.isWhitespace).length := by
    calc ((s.dropWhile Char.isWhitespace).reverse.dropWhile Char.isWhitespace).length
        ≤ (s.dropWhile Char.isWhitespace).reverse.length := (List.dropWhile_sublist _).length_le
      _ = (s.dropWhile Char.isWhitespace).length := List.length_reverse _
  have hlen : (pyStrip s).length =
      ((s.dropWhile Char.isWhitespace).reverse.dropWhile Char.isWhitespace).length := by
    rw [pyStrip, List.length_reverse]
  have heq : (s.dropWhile Char.isWhitespace).length = s.length := by
    rw [h] at hlen
    omega
  have hfirst : s.dropWhile Char.isWhitespace = s :=
    (List.dropWhile_sublist _).eq_of_length heq
  refine ⟨hfirst, ?_⟩
  have h3 : (s.reverse.dropWhile Char.isWhitespace).reverse = s := by
    have := h
    rw [pyStrip, hfirst] at this
    exact this
  have h4 := congrArg List.reverse h3
  rw [List.reverse_reverse] at h4
  exact h4

theorem pyStrip_pad_right {s : List Char} (h : pyStrip s = s) (k : Nat) :
    pyStrip (s ++ List.replicate k ' ') = s := by
  cases s with
  | nil =>
    have hall : (List.replicate k ' ').dropWhile Char.isWhitespace = [] := by
      induction k with
      | zero => rfl
      | succ n ih => rw [List.replicate_succ, List.dropWhile_cons_of_pos (by decide)]; exact ih
    rw [List.nil_append, pyStrip, hall]
    rfl
  | cons a s =>
    obtain ⟨hfwd, hrev⟩ := pyStrip_stripped_parts h
    have hhead : a.isWhitespace = false := by
      by_contra hcon
      rw [Bool.not_eq_false] at hcon
      rw [List.dropWhile_cons_of_pos hcon] at hfwd
      have := (@List.dropWhile_sublist Char s Char.isWhitespace).length_le
      have h2 := congrArg List.length hfwd
      simp at h2
      omega
    have hd : List.dropWhile Char.isWhitespace ((a :: s) ++ List.replicate k ' ') =
        (a :: s) ++ List.replicate k ' ' := by
      rw [List.cons_append]
      exact List.dropWhile_cons_of_neg (by rw [hhead]; exact Bool.false_ne_true)
    rw [pyStrip, hd, List.reverse_append, List.reverse_replicate,
      List.dropWhile_append_of_pos (replicate_space_ws k), hrev, List.reverse_reverse]

theorem pyStrip_pad_left {s : List Char} (h : pyStrip s = s) (k : Nat) :
    pyStrip (List.replicate k ' ' ++ s) = s := by
  rw [pyStrip, List.dropWhile_append_of_pos (replicate_space_ws k)]
  obtain ⟨hfwd, hrev⟩ := pyStrip_stripped_parts h
  rw [hfwd, hrev, List.reverse_reverse]

theorem pyStrip_rightJust {s : List Char} (h : pyStrip s = s) (w : Nat) :
    pyStrip (rightJust w s) = s :=
  pyStrip_pad_left h _

theorem pyStrip_leftJust {s : List Char} (h : pyStrip s = s) (w : Nat) :
    pyStrip (leftJust w s) = s :=
  pyStrip_pad_right h _

theorem rightJust_length {w : Nat} {s : List Char} (h : s.length ≤ w) :
    (rightJust w s).length = w := by
  rw [rightJust, List.length_append, List.length_replicate]
  omega

theorem leftJust_length {w : Nat} {s : List Char} (h : s.length ≤ w) :
    (leftJust w s).length = w := by
  rw [leftJust, List.length_append, List.length_replicate]
  omega

/-! ### Parsing inverts rendering -/

theorem parseDigits_of_digits {l : List Char} (hne : l ≠ [])
    (hd : ∀ c ∈ l, c.isDigit = true) : parseDigits l = some (digitsVal l) := by
  rw [parseDigits, if_pos]
  exact ⟨hne, List.all_eq_true.mpr hd⟩

theorem pyParseInt_natToChars (n : Nat) : pyParseInt (natToChars n) = some (n : Int) := by
  obtain ⟨hne, hdig, hval, -⟩ := natToChars_spec n
  cases hcons : natToChars n with
  | nil => exact absurd hcons hne
  | cons c cs =>
    have hc : c.isDigit = true := hdig c (by rw [hcons]; exact List.mem_cons_self c cs)
    obtain ⟨hdash, hplus, -⟩ := ne_signs_of_isDigit hc
    rw [hcons] at hval
    rw [pyParseInt, List.head?_cons,
      if_neg (fun hcon => hdash (Option.some.inj hcon)),
      if_neg (fun hcon => hplus (Option.some.inj hcon)),
      parseDigits_of_digits (by simp) (by rw [← hcons]; exact hdig), hval]
    rfl

theorem pyParseInt_intToChars (i : Int) : pyParseInt (intToChars i) = some i := by
  by_cases hneg : i < 0
  · rw [intToChars, if_pos hneg, pyParseInt, List.head?_cons, if_pos rfl, List.tail_cons]
    obtain ⟨hne, hdig, hval, -⟩ := natToChars_spec i.natAbs
    rw [parseDigits_of_digits hne hdig, hval, Option.map_some']
    congr 1
    rw [Int.ofNat_eq_natCast]
    omega
  · rw [intToChars, if_neg hneg]
    rw [pyParseInt_natToChars]
    congr 1
    omega

theorem fixed3_shift3 (num : Int) :
    fixed3 ⟨num, 3⟩ =
      (if num < 0 then ['-'] else []) ++ natToChars (num.natAbs / 1000) ++
        '.' :: pad3 (num.natAbs % 1000) := by
  have hm : Int.fdiv (2 * (num * 1000) + 10 ^ 3) (2 * 10 ^ 3) = num := by
    have h1 : (2 : Int) * (num * 1000) + 10 ^ 3 = 1000 + num * 2000 := by ring
    have h2 : (2 : Int) * 10 ^ 3 = 2000 := by norm_num
    rw [h1, h2, Int.fdiv_eq_ediv _ (by norm_num), Int.add_mul_ediv_right _ _ (by norm_num)]
    norm_num
  simp only [fixed3]
  rw [hm]

theorem pad3_spec {b : Nat} (hb : b < 1000) :
    (∀ c ∈ pad3 b, c.isDigit = true) ∧ (pad3 b).length = 3 ∧ digitsVal (pad3 b) = b := by
  obtain ⟨hne, hdig, hval, hlen⟩ := natToChars_spec b
  have hl3 : (natToChars b).length ≤ 3 := hlen 3 (by norm_num) (by omega)
  refine ⟨?_, ?_, ?_⟩
  · intro c hc
    rw [pad3] at hc
    rcases List.mem_append.mp hc with h1 | h1
    · rw [List.eq_of_mem_replicate h1]; decide
    · exact hdig c h1
  · rw [pad3, List.length_append, List.length_replicate]
    omega
  · rw [pad3, digitsVal_zeros, hval]

theorem fixed3_no_ws (d : Dec) : ∀ c ∈ fixed3 d, c.isWhitespace = false := by
  intro c hc
  simp only [fixed3] at hc
  rcases List.mem_append.mp hc with h1 | h1
  · rcases List.mem_append.mp h1 with h2 | h2
    · by_cases hs : Int.fdiv (2 * (d.num * 1000) + 10 ^ d.shift) (2 * 10 ^ d.shift) < 0
      · rw [if_pos hs] at h2
        rw [List.mem_singleton] at h2
        subst h2
        decide
      · rw [if_neg hs] at h2
        exact absurd h2 (List.not_mem_nil c)
    · exact not_ws_of_isDigit ((natToChars_spec _).2.1 c h2)
  · rcases List.mem_cons.mp h1 with h3 | h3
    · subst h3; decide
    · rw [pad3] at h3
      rcases List.mem_append.mp h3 with h4 | h4
      · rw [List.eq_of_mem_replicate h4]; decide
      · exact not_ws_of_isDigit ((natToChars_spec _).2.1 c h4)

theorem takeWhile_dot_cons (fp : List Char) :
    List.takeWhile (fun c => decide (c ≠ '.')) ('.' :: fp) = [] := by
  rw [List.takeWhile_cons]
  simp

theorem dropWhile_dot_cons (fp : List Char) :
    List.dropWhile (fun c => decide (c ≠ '.')) ('.' :: fp) = '.' :: fp := by
  rw [List.dropWhile_cons]
  simp

theorem parseUFloat_digits_dot {ip fp : List Char} (hip : ∀ c ∈ ip, c.isDigit = true)
    (hfp : ∀ c ∈ fp, c.isDigit = true) (hipne : ip ≠ []) :
    parseUFloat (ip ++ '.' :: fp) =
      some { num := (digitsVal ip * 10 ^ fp.length + digitsVal fp : Int), shift := fp.length } := by
  have hp : ∀ c ∈ ip, (fun c => decide (c ≠ '.')) c = true := by
    intro c hc
    simp only [decide_eq_true_eq]
    exact (ne_signs_of_isDigit (hip c hc)).2.2
  simp only [parseUFloat, List.takeWhile_append_of_pos hp, List.dropWhile_append_of_pos hp,
    takeWhile_dot_cons, dropWhile_dot_cons, List.append_nil]
  rw [if_pos (List.all_eq_true.mpr hip)]
  rw [if_pos ⟨List.all_eq_true.mpr hfp, Or.inl hipne⟩]

theorem pyParseFloat_fixed3 {d : Dec} (h3 : d.shift = 3) :
    pyParseFloat (fixed3 d) = some d := by
  obtain ⟨num, shift⟩ := d
  simp only at h3
  subst h3
  rw [fixed3_shift3]
  have hmod : num.natAbs % 1000 < 1000 := Nat.mod_lt _ (by norm_num)
  obtain ⟨hpd, hpl, hpv⟩ := pad3_spec hmod
  obtain ⟨hne, hdig, hval, -⟩ := natToChars_spec (num.natAbs / 1000)
  have hbody := parseUFloat_digits_dot hdig hpd hne
  have hnum : (digitsVal (natToChars (num.natAbs / 1000)) *
      10 ^ (pad3 (num.natAbs % 1000)).length + digitsVal (pad3 (num.natAbs % 1000)) : Int)
      = (num.natAbs : Int) := by
    rw [hval, hpv, hpl]
    have := Nat.div_add_mod num.natAbs 1000
    push_cast
    omega
  by_cases hneg : num < 0
  · rw [if_pos hneg, List.singleton_append, List.cons_append, pyParseFloat, List.head?_cons,
      if_pos rfl, List.tail_cons, hbody, Option.map_some']
    rw [hpl] at hnum ⊢
    simp only [Option.some.injEq, Dec.mk.injEq]
    norm_num at hnum ⊢
    omega
  · rw [if_neg hneg, List.nil_append]
    cases hcons : natToChars (num.natAbs / 1000) with
    | nil => exact absurd hcons hne
    | cons c cs =>
      have hc : c.isDigit = true := hdig c (by rw [hcons]; exact List.mem_cons_self c cs)
      obtain ⟨hdash, hplus, -⟩ := ne_signs_of_isDigit hc
      rw [← hcons, pyParseFloat]
      rw [show (natToChars (num.natAbs / 1000) ++ '.' :: pad3 (num.natAbs % 1000)).head? =
          some c by rw [hcons]; rfl]
      rw [if_neg (fun hcon => hdash (Option.some.inj hcon)),
        if_neg (fun hcon => hplus (Option.some.inj hcon)), hbody]
      rw [hpl] at hnum ⊢
      simp only [Option.some.injEq, Dec.mk.injEq]
      norm_num at hnum ⊢
      omega

theorem decode_encode {r : Atom} (h : wellFormedAtom r) : decode_atom (encode_atom r) = some r := by
  obtain ⟨h1, h2, h3, h4, h5, h6, hx3, hx8, hy3, hy8, hz3, hz8⟩ := h
  set F1 := rightJust 5 (intToChars r.resid) with hF1
  set F2 := leftJust 5 r.resname with hF2
  set F3 := rightJust 5 r.atom_name with hF3
  set F4 := rightJust 5 (intToChars r.atomid) with hF4
  set F5 := rightJust 8 (fixed3 r.x) with hF5
  set F6 := rightJust 8 (fixed3 r.y) with hF6
  set F7 := rightJust 8 (fixed3 r.z) with hF7
  have l1 : F1.length = 5 := rightJust_length h1
  have l2 : F2.length = 5 := leftJust_length h3
  have l3 : F3.length = 5 := rightJust_length h5
  have l4 : F4.length = 5 := rightJust_length h6
  have l5 : F5.length = 8 := rightJust_length hx8
  have l6 : F6.length = 8 := rightJust_length hy8
  have l7 : F7.length = 8 := rightJust_length hz8
  have henc : encode_atom r = F1 ++ (F2 ++ (F3 ++ (F4 ++ (F5 ++ (F6 ++ (F7 ++ ['\n'])))))) := by
    rw [encode_atom]
    simp [List.append_assoc]
  have d5 : (encode_atom r).drop 5 = F2 ++ (F3 ++ (F4 ++ (F5 ++ (F6 ++ (F7 ++ ['\n']))))) := by
    rw [henc]
    exact List.drop_left' l1
  have d10 : (encode_atom r).drop 10 = F3 ++ (F4 ++ (F5 ++ (F6 ++ (F7 ++ ['\n'])))) := by
    rw [show (10 : Nat) = 5 + 5 from rfl, ← List.drop_drop, d5]
    exact List.drop_left' l2
  have d15 : (encode_atom r).drop 15 = F4 ++ (F5 ++ (F6 ++ (F7 ++ ['\n']))) := by
    rw [show (15 : Nat) = 10 + 5 from rfl, ← List.drop_drop, d10]
    exact List.drop_left' l3
  have d20 : (encode_atom r).drop 20 = F5 ++ (F6 ++ (F7 ++ ['\n'])) := by
    rw [show (20 : Nat) = 15 + 5 from rfl, ← List.drop_drop, d15]
    exact List.drop_left' l4
  have d28 : (encode_atom r).drop 28 = F6 ++ (F7 ++ ['\n']) := by
    rw [show (28 : Nat) = 20 + 8 from rfl, ← List.drop_drop, d20]
    exact List.drop_left' l5
  have d36 : (encode_atom r).drop 36 = F7 ++ ['\n'] := by
    rw [show (36 : Nat) = 28 + 8 from rfl, ← List.drop_drop, d28]
    exact List.drop_left' l6
  have s1 : slice 0 5 (encode_atom r) = F1 := by
    rw [slice, List.drop_zero, Nat.sub_zero, henc]
    exact List.take_left' l1
  have s2 : slice 5 10 (encode_atom r) = F2 := by
    rw [slice, show (10 : Nat) - 5 = 5 from rfl, d5]
    exact List.take_left' l2
  have s3 : slice 10 15 (encode_atom r) = F3 := by
    rw [slice, show (15 : Nat) - 10 = 5 from rfl, d10]
    exact List.take_left' l3
  have s4 : slice 15 20 (encode_atom r) = F4 := by
    rw [slice, show (20 : Nat) - 15 = 5 from rfl, d15]
    exact List.take_left' l4
  have s5 : slice 20 28 (encode_atom r) = F5 := by
    rw [slice, show (28 : Nat) - 20 = 8 from rfl, d20]
    exact List.take_left' l5
  have s6 : slice 28 36 (encode_atom r) = F6 := by
    rw [slice, show (36 : Nat) - 28 = 8 from rfl, d28]
    exact List.take_left' l6
  have s7 : slice 36 44 (encode_atom r) = F7 := by
    rw [slice, show (44 : Nat) - 36 = 8 from rfl, d36]
    exact List.take_left' l7
  have p1 : pyParseInt (pyStrip (slice 0 5 (encode_atom r))) = some r.resid := by
    rw [s1, hF1, pyStrip_rightJust (pyStrip_eq_self_of_no_ws (intToChars_no_ws _)),
      pyParseInt_intToChars]
  have p2 : pyStrip (slice 5 10 (encode_atom r)) = r.resname := by
    rw [s2, hF2, pyStrip_leftJust h2]
  have p3 : pyStrip (slice 10 15 (encode_atom r)) = r.atom_name := by
    rw [s3, hF3, pyStrip_rightJust h4]
  have p4 : pyParseInt (pyStrip (slice 15 20 (encode_atom r))) = some r.atomid := by
    rw [s4, hF4, pyStrip_rightJust (pyStrip_eq_self_of_no_ws (intToChars_no_ws _)),
      pyParseInt_intToChars]
  have p5 : pyParseFloat (pyStrip (slice 20 28 (encode_atom r))) = some r.x := by
    rw [s5, hF5, pyStrip_rightJust (pyStrip_eq_self_of_no_ws (fixed3_no_ws _)),
      pyParseFloat_fixed3 hx3]
  have p6 : pyParseFloat (pyStrip (slice 28 36 (encode_atom r))) = some r.y := by
    rw [s6, hF6, pyStrip_rightJust (pyStrip_eq_self_of_no_ws (fixed3_no_ws _)),
      pyParseFloat_fixed3 hy3]
  have p7 : pyParseFloat (pyStrip (slice 36 44 (encode_atom r))) = some r.z := by
    rw [s7, hF7, pyStrip_rightJust (pyStrip_eq_self_of_no_ws (fixed3_no_ws _)),
      pyParseFloat_fixed3 hz3]
  simp [decode_atom, p1, p2, p3, p4, p5, p6, p7]

/-! ### Reorder facts -/

theorem range_split {n anchor : Nat} (h : anchor ≤ n) :
    List.range anchor ++ List.range' anchor (n - anchor) = List.range n := by
  rw [List.range_eq_range', List.range_eq_range' n]
  have h1 := List.range'_append_1 0 anchor (n - anchor)
  rw [Nat.zero_add] at h1
  rw [show n - anchor + anchor = n from by omega] at h1
  exact h1

theorem reorder_pre_eq {n anchor : Nat} (ins : List Nat) (h : anchor ≤ n) :
    (List.range anchor).filter (fun i => decide (i ∉ ins)) =
      (List.range n).filter (fun i => decide (i < anchor ∧ i ∉ ins)) := by
  rw [← range_split h, List.filter_append]
  have e1 : (List.range anchor).filter (fun i => decide (i < anchor ∧ i ∉ ins)) =
      (List.range anchor).filter (fun i => decide (i ∉ ins)) := by
    apply List.filter_congr
    intro i hi
    rw [List.mem_range] at hi
    simp [hi]
  have e2 : (List.range' anchor (n - anchor)).filter
      (fun i => decide (i < anchor ∧ i ∉ ins)) = [] := by
    rw [List.filter_eq_nil_iff]
    intro i hi
    rw [List.mem_range'_1] at hi
    simp only [decide_eq_true_eq, not_and]
    intro hlt
    omega
  rw [e1, e2, List.append_nil]

theorem reorder_post_eq {n anchor : Nat} (ins : List Nat) (h : anchor ≤ n) :
    (List.range' anchor (n - anchor)).filter (fun i => decide (i ∉ ins)) =
      (List.range n).filter (fun i => decide (anchor ≤ i ∧ i ∉ ins)) := by
  rw [← range_split h, List.filter_append]
  have e1 : (List.range anchor).filter (fun i => decide (anchor ≤ i ∧ i ∉ ins)) = [] := by
    rw [List.filter_eq_nil_iff]
    intro i hi
    rw [List.mem_range] at hi
    simp only [decide_eq_true_eq, not_and]
    intro hle
    omega
  have e2 : (List.range' anchor (n - anchor)).filter
      (fun i => decide (anchor ≤ i ∧ i ∉ ins)) =
      (List.range' anchor (n - anchor)).filter (fun i => decide (i ∉ ins)) := by
    apply List.filter_congr
    intro i hi
    rw [List.mem_range'_1] at hi
    simp [hi.1]
  rw [e1, e2, List.nil_append]

theorem reorder_eq_filters {n anchor : Nat} (ins : List Nat) (h : anchor ≤ n) :
    reorder n ins anchor =
      (List.range n).filter (fun i => decide (i < anchor ∧ i ∉ ins)) ++ ins ++
        (List.range n).filter (fun i => decide (anchor ≤ i ∧ i ∉ ins)) := by
  rw [reorder, reorder_pre_eq ins h, reorder_post_eq ins h]

theorem reorder_perm {n anchor : Nat} {ins : List Nat} (hnd : ins.Nodup)
    (hmem : ∀ i ∈ ins, i < n) (h : anchor ≤ n) :
    (reorder n ins anchor).Perm (List.range n) := by
  rw [reorder_eq_filters ins h]
  apply (List.perm_ext_iff_of_nodup ?_ (List.nodup_range n)).mpr
  · intro i
    constructor
    · intro hi
      rcases List.mem_append.mp hi with h1 | h1
      · rcases List.mem_append.mp h1 with h2 | h2
        · exact (List.mem_filter.mp h2).1
        · exact List.mem_range.mpr (hmem i h2)
      · exact (List.mem_filter.mp h1).1
    · intro hi
      by_cases hin : i ∈ ins
      · exact List.mem_append.mpr (Or.inl (List.mem_append.mpr (Or.inr hin)))
      · by_cases hlt : i < anchor
        · exact List.mem_append.mpr (Or.inl (List.mem_append.mpr (Or.inl
            (List.mem_filter.mpr ⟨hi, by simp [hlt, hin]⟩))))
        · exact List.mem_append.mpr (Or.inr
            (List.mem_filter.mpr ⟨hi, by simp [hin]; omega⟩))
  · apply List.Nodup.append
    · apply List.Nodup.append
      · exact List.Nodup.filter _ (List.nodup_range n)
      · exact hnd
      · intro a ha hin
        have := (List.mem_filter.mp ha).2
        simp only [decide_eq_true_eq] at this
        exact this.2 hin
    · exact List.Nodup.filter _ (List.nodup_range n)
    · intro a ha hpost
      have hp := (List.mem_filter.mp hpost).2
      simp only [decide_eq_true_eq] at hp
      rcases List.mem_append.mp ha with h1 | h1
      · have := (List.mem_filter.mp h1).2
        simp only [decide_eq_true_eq] at this
        omega
      · exact hp.2 h1

theorem reorder_nil (n anchor : Nat) (h : anchor ≤ n) :
    reorder n [] anchor = List.range n := by
  have h1 : ∀ l : List Nat, l.filter (fun i => decide (i ∉ ([] : List Nat))) = l := by
    intro l
    apply List.filter_eq_self.mpr
    intro a _
    simp
  rw [reorder, h1, h1, List.append_nil, range_split h]

/-! ### Renumber facts -/

theorem renumberAux_resids (l : List Atom) :
    ∀ (c : Nat) (prev : Int) (pos : Nat),
      (renumberAux c prev pos l).map (fun a => a.resid) =
        (renumResids c prev (l.map (fun a => a.resid))).map
          (fun m => ((m % 100000 : Nat) : Int)) := by
  induction l with
  | nil => intro c prev pos; rfl
  | cons a rest ih =>
    intro c prev pos
    by_cases hch : a.resid = prev
    · simp [renumberAux, renumResids, hch, ih]
    · simp [renumberAux, renumResids, hch, ih]

theorem renumberAux_atomids (l : List Atom) :
    ∀ (c : Nat) (prev : Int) (pos : Nat),
      (renumberAux c prev pos l).map (fun a => a.atomid) =
        (List.range' pos l.length).map (fun p => ((p % 100000 : Nat) : Int)) := by
  induction l with
  | nil => intro c prev pos; rfl
  | cons a rest ih =>
    intro c prev pos
    by_cases hch : a.resid = prev
    · simp [renumberAux, List.range'_succ, hch, ih]
    · simp [renumberAux, List.range'_succ, hch, ih]

theorem renumberAux_others (l : List Atom) :
    ∀ (c : Nat) (prev : Int) (pos : Nat),
      (renumberAux c prev pos l).map (fun a => (a.resname, a.atom_name, a.x, a.y, a.z)) =
        l.map (fun a => (a.resname, a.atom_name, a.x, a.y, a.z)) := by
  induction l with
  | nil => intro c prev pos; rfl
  | cons a rest ih =>
    intro c prev pos
    by_cases hch : a.resid = prev
    · simp [renumberAux, hch, ih]
    · simp [renumberAux, hch, ih]

theorem renumberAux_length (l : List Atom) (c : Nat) (prev : Int) (pos : Nat) :
    (renumberAux c prev pos l).length = l.length := by
  have h := congrArg List.length (renumberAux_atomids l c prev pos)
  simpa using h

theorem renumResids_length (rs : List Int) : ∀ (c : Nat) (prev : Int),
    (renumResids c prev rs).length = rs.length := by
  induction rs with
  | nil => intro c prev; rfl
  | cons r rest ih => intro c prev; simp [renumResids, ih]

theorem renumResids_getD_succ (rs : List Int) :
    ∀ (c : Nat) (prev : Int) (k : Nat), k + 1 < rs.length →
      (renumResids c prev rs).getD (k + 1) 0 =
        (if rs.getD (k + 1) 0 = rs.getD k 0 then (renumResids c prev rs).getD k 0
         else (renumResids c prev rs).getD k 0 + 1) := by
  induction rs with
  | nil => intro c prev k h; simp at h
  | cons r rest ih =>
    intro c prev k h
    cases k with
    | zero =>
      cases rest with
      | nil => simp at h
      | cons r1 rest1 =>
        by_cases h1 : r1 = r
        · simp [renumResids, h1]
        · by_cases h0 : r = prev <;> simp [renumResids, h0, h1]
    | succ k' =>
      have hlen : k' + 1 < rest.length := by
        rw [List.length_cons] at h
        omega
      by_cases h0 : r = prev
      · simpa [renumResids, h0] using ih c r k' hlen
      · simpa [renumResids, h0] using ih (c + 1) r k' hlen

theorem renumResids_prefix_const (rs : List Int) :
    ∀ (c : Nat) (prev : Int) (k : Nat), k < rs.length → (∀ j, j ≤ k → rs.getD j 0 = prev) →
      (renumResids c prev rs).getD k 0 = c := by
  induction rs with
  | nil => intro c prev k h _; simp at h
  | cons r rest ih =>
    intro c prev k hk hall
    have h0 : r = prev := by simpa using hall 0 (by omega)
    cases k with
    | zero => simp [renumResids, h0]
    | succ k' =>
      have hrest : ∀ j, j ≤ k' → rest.getD j 0 = r := by
        intro j hj
        have := hall (j + 1) (by omega)
        rw [List.getD_cons_succ] at this
        rw [this, h0]
      have hlen : k' < rest.length := by
        rw [List.length_cons] at hk
        omega
      simpa [renumResids, h0] using ih c r k' hlen hrest

theorem map_getD_eq {α β : Type} (f : α → β) (l : List α) (k : Nat) (hk : k < l.length)
    (d : α) (d' : β) : (l.map f).getD k d' = f (l.getD k d) := by
  rw [List.getD_eq_getElem _ _ (by simpa using hk), List.getD_eq_getElem _ _ hk,
    List.getElem_map]

theorem renumber_resid_getD (atoms : List Atom) (k : Nat) (hk : k < atoms.length) :
    ((renumber atoms).getD k default).resid =
      (((renumResids 0 0 (atoms.map (fun a => a.resid))).getD k 0 % 100000 : Nat) : Int) := by
  have hlen : (renumber atoms).length = atoms.length := renumberAux_length atoms 0 0 1
  have h1 : ((renumber atoms).map (fun a => a.resid)).getD k 0 =
      ((renumber atoms).getD k default).resid :=
    map_getD_eq _ _ _ (by omega) default 0
  have h2 := renumberAux_resids atoms 0 0 1
  rw [renumber] at h1 ⊢
  rw [h2] at h1
  rw [← h1]
  have hklen : k < (renumResids 0 0 (atoms.map (fun a => a.resid))).length := by
    rw [renumResids_length, List.length_map]
    exact hk
  exact map_getD_eq _ _ _ hklen 0 _

theorem orig_resid_getD (atoms : List Atom) (k : Nat) (hk : k < atoms.length) :
    (atoms.map (fun a => a.resid)).getD k 0 = (atoms.getD k default).resid :=
  map_getD_eq _ _ _ hk default 0

/-! ### Mutator, selector and sampler facts -/

theorem modifyIdx_length (f : Atom → Atom) : ∀ (i : Nat) (l : List Atom),
    (modifyIdx f i l).length = l.length := by
  intro i l
  induction l generalizing i with
  | nil => cases i <;> rfl
  | cons a rest ih =>
    cases i with
    | zero => rfl
    | succ n => simp [modifyIdx, ih]

theorem modifyIdx_getD (f : Atom → Atom) (i : Nat) (l : List Atom) (j : Nat) (d : Atom) :
    (modifyIdx f i l).getD j d =
      if i = j ∧ j < l.length then f (l.getD j d) else l.getD j d := by
  induction l generalizing i j with
  | nil => simp [modifyIdx]
  | cons a rest ih =>
    cases i with
    | zero =>
      cases j with
      | zero => simp [modifyIdx]
      | succ j' => simp [modifyIdx]
    | succ i' =>
      cases j with
      | zero => simp [modifyIdx]
      | succ j' =>
        rw [show modifyIdx f (i' + 1) (a :: rest) = a :: modifyIdx f i' rest from rfl,
          List.getD_cons_succ, List.getD_cons_succ, ih]
        by_cases hij : i' = j' ∧ j' < rest.length
        · rw [if_pos hij, if_pos (show i' + 1 = j' + 1 ∧ j' + 1 < (a :: rest).length by
            rw [List.length_cons]; omega)]
        · rw [if_neg hij, if_neg (by rw [List.length_cons]; omega)]

theorem alter_atoms_spec (indices : List Nat) (atoms : List Atom) (rn an : List Char) :
    (alter_atoms atoms indices rn an).length = atoms.length ∧
    (∀ j, j ∉ indices →
      (alter_atoms atoms indices rn an).getD j default = atoms.getD j default) ∧
    (∀ j, j ∈ indices → j < atoms.length →
      (alter_atoms atoms indices rn an).getD j default =
        { atoms.getD j default with resname := rn, atom_name := an }) := by
  induction indices generalizing atoms with
  | nil => exact ⟨rfl, fun j _ => rfl, fun j hj _ => absurd hj (List.not_mem_nil j)⟩
  | cons i rest ih =>
    have hstep : alter_atoms atoms (i :: rest) rn an =
        alter_atoms (modifyIdx (fun a => { a with resname := rn, atom_name := an }) i atoms)
          rest rn an := rfl
    obtain ⟨ihl, ihnot, ihin⟩ :=
      ih (modifyIdx (fun a => { a with resname := rn, atom_name := an }) i atoms)
    have hml := modifyIdx_length
      (fun a => { a with resname := rn, atom_name := an }) i atoms
    refine ⟨by rw [hstep, ihl, hml], ?_, ?_⟩
    · intro j hj
      have hji : j ≠ i := fun hcon => hj (hcon ▸ List.mem_cons_self i rest)
      have hjr : j ∉ rest := fun hcon => hj (List.mem_cons_of_mem i hcon)
      rw [hstep, ihnot j hjr, modifyIdx_getD, if_neg (by omega)]
    · intro j hj hjlen
      rcases List.mem_cons.mp hj with hji | hjr
      · subst hji
        by_cases hjr : j ∈ rest
        · rw [hstep, ihin j hjr (by omega), modifyIdx_getD, if_pos ⟨rfl, hjlen⟩]
        · rw [hstep, ihnot j hjr, modifyIdx_getD, if_pos ⟨rfl, hjlen⟩]
      · by_cases hji : i = j
        · subst hji
          by_cases hjr2 : i ∈ rest
          · rw [hstep, ihin i hjr2 (by omega), modifyIdx_getD, if_pos ⟨rfl, hjlen⟩]
          · rw [hstep, ihnot i hjr2, modifyIdx_getD, if_pos ⟨rfl, hjlen⟩]
        · rw [hstep, ihin j hjr (by omega), modifyIdx_getD, if_neg (by omega)]

theorem select_mem (atoms : List Atom) (f : Atom → List Char) (value : List Char) (i : Nat) :
    i ∈ select atoms f value ↔ i < atoms.length ∧ f (atoms.getD i default) = value := by
  rw [select, List.mem_filter, List.mem_range]
  simp

theorem select_nodup (atoms : List Atom) (f : Atom → List Char) (value : List Char) :
    (select atoms f value).Nodup :=
  List.Nodup.filter _ (List.nodup_range _)

theorem sampleSpec_take (candidates : List Nat) (k : Nat) (hnd : candidates.Nodup)
    (hk : k ≤ candidates.length) : sampleSpec candidates k (candidates.take k) := by
  refine ⟨by rw [List.length_take]; omega, List.Nodup.sublist (List.take_sublist k _) hnd,
    fun i hi => List.take_subset k _ hi⟩

theorem sampleSpec_full {candidates pick : List Nat} (hnd : candidates.Nodup)
    (hspec : sampleSpec candidates candidates.length pick) : ∀ i ∈ candidates, i ∈ pick := by
  obtain ⟨hlen, hpnd, hsub⟩ := hspec
  have hsubf : pick.toFinset ⊆ candidates.toFinset := by
    intro a ha
    rw [List.mem_toFinset] at ha ⊢
    exact hsub a ha
  have hcards : candidates.toFinset.card ≤ pick.toFinset.card := by
    rw [List.toFinset_card_of_nodup hpnd, List.toFinset_card_of_nodup hnd, hlen]
  have heq : pick.toFinset = candidates.toFinset :=
    Finset.eq_of_subset_of_card_le hsubf hcards
  intro i hi
  rw [← List.mem_toFinset, heq, List.mem_toFinset]
  exact hi

/-! ### Reader facts -/

theorem readAtomsLoop_spec (ls : List (List Char)) :
    ∀ (prev last : List Char), (decode_atom prev).isSome = true →
      (∀ l ∈ ls, (decode_atom l).isSome = true) →
      ∃ ats : List Atom, readAtomsLoop prev (ls ++ [last]) = .ok (ats, last) ∧
        ats.map some = (prev :: ls).map decode_atom := by
  induction ls with
  | nil =>
    intro prev last hprev _
    obtain ⟨a, ha⟩ := Option.isSome_iff_exists.mp hprev
    exact ⟨[a], by simp [readAtomsLoop, ha], by simp [ha]⟩
  | cons l rest ih =>
    intro prev last hprev hall
    obtain ⟨a, ha⟩ := Option.isSome_iff_exists.mp hprev
    obtain ⟨ats, hok, hmap⟩ := ih l last (hall l (List.mem_cons_self l rest))
      (fun x hx => hall x (List.mem_cons_of_mem l hx))
    refine ⟨a :: ats, ?_, ?_⟩
    · rw [List.cons_append, readAtomsLoop, ha, hok]
    · simp only [List.map_cons, ha] at hmap ⊢
      rw [hmap]

theorem readAtomsLoop_ne_stop : ∀ (ls : List (List Char)) (prev : List Char),
    readAtomsLoop prev ls ≠ .error .stopIteration := by
  intro ls
  induction ls with
  | nil =>
    intro prev h
    simp [readAtomsLoop] at h
  | cons l rest ih =>
    intro prev h
    rw [readAtomsLoop] at h
    cases hd : decode_atom prev with
    | none =>
      rw [hd] at h
      exact ReadError.noConfusion (Except.error.inj h)
    | some a =>
      rw [hd] at h
      cases hr : readAtomsLoop l rest with
      | ok p =>
        rw [hr] at h
        exact Except.noConfusion h
      | error e =>
        rw [hr] at h
        have he := Except.error.inj h
        subst he
        exact ih l hr

theorem stop_at_empty_take (ls trailing : List (List Char))
    (hls : ∀ l ∈ ls, pyStrip l ≠ [])
    (htr : trailing = [] ∨ ∃ b rest, trailing = b :: rest ∧ pyStrip b = []) :
    stop_at_empty_line (ls ++ trailing) = ls := by
  rw [stop_at_empty_line,
    List.takeWhile_append_of_pos (by intro l hl; simpa using hls l hl)]
  rcases htr with rfl | ⟨b, rest, rfl, hb⟩
  · simp
  · rw [List.takeWhile_cons]
    simp [hb]

theorem read_gro_spec (title cnt footer : List Char) (atomLines trailing : List (List Char))
    (hdec : ∀ l ∈ atomLines, (decode_atom l).isSome = true)
    (hnb : ∀ l ∈ atomLines, pyStrip l ≠ [])
    (hfoot : pyStrip footer ≠ [])
    (htr : trailing = [] ∨ ∃ b rest, trailing = b :: rest ∧ pyStrip b = []) :
    ∃ ats : List Atom,
      read_gro (title :: cnt :: (atomLines ++ footer :: trailing)) = .ok (title, ats, footer) ∧
      ats.map some = atomLines.map decode_atom := by
  cases atomLines with
  | nil =>
    have hstop : stop_at_empty_line trailing = [] := by
      have h0 : trailing = [] ++ trailing := rfl
      rw [h0, stop_at_empty_take [] trailing (by intro l hl; simp at hl) htr]
    refine ⟨[], ?_, rfl⟩
    rw [List.nil_append, read_gro, hstop]
    rfl
  | cons a1 rest1 =>
    have hsplit : rest1 ++ footer :: trailing = (rest1 ++ [footer]) ++ trailing := by simp
    have hstop : stop_at_empty_line (rest1 ++ footer :: trailing) = rest1 ++ [footer] := by
      rw [hsplit]
      apply stop_at_empty_take (rest1 ++ [footer]) trailing ?_ htr
      intro l hl
      rcases List.mem_append.mp hl with h1 | h1
      · exact hnb l (List.mem_cons_of_mem a1 h1)
      · rw [List.mem_singleton] at h1
        subst h1
        exact hfoot
    obtain ⟨ats, hok, hmap⟩ := readAtomsLoop_spec rest1 a1 footer
      (hdec a1 (List.mem_cons_self a1 rest1))
      (fun l hl => hdec l (List.mem_cons_of_mem a1 hl))
    refine ⟨ats, ?_, hmap⟩
    rw [List.cons_append, read_gro, hstop, hok]

theorem read_gro_stop_iff (lines : List (List Char)) :
    read_gro lines = .error .stopIteration ↔ lines.length < 3 := by
  match lines with
  | [] => simp [read_gro]
  | [a] => simp [read_gro]
  | [a, b] => simp [read_gro]
  | a :: b :: c :: rest =>
    constructor
    · intro h
      rw [read_gro] at h
      cases hr : readAtomsLoop c (stop_at_empty_line rest) with
      | ok p =>
        obtain ⟨ats, box⟩ := p
        rw [hr] at h
        exact Except.noConfusion h
      | error e =>
        rw [hr] at h
        have he := Except.error.inj h
        subst he
        exact absurd hr (readAtomsLoop_ne_stop _ _)
    · intro h
      simp at h
      omega

theorem read_gro_bad_atom (t c bad footer : List Char) (hbad : decode_atom bad = none)
    (hfoot : pyStrip footer ≠ []) :
    read_gro [t, c, bad, footer] = .error .formatError := by
  have hstop : stop_at_empty_line [footer] = [footer] := by
    rw [stop_at_empty_line, List.takeWhile_cons]
    simp [hfoot]
  rw [show ([t, c, bad, footer] : List (List Char)) = t :: c :: bad :: [footer] from rfl,
    read_gro, hstop, readAtomsLoop, hbad]

theorem replace_atom_sample_error {atoms : List Atom} {f : Atom → List Char}
    {value rn an : List Char} {nsub : Nat} {pick : List Nat}
    (h : (select atoms f value).length < nsub) :
    replace_atom atoms f value rn an nsub pick = .error .sampleError := by
  simp only [replace_atom]
  rw [if_neg (by omega)]

theorem replace_atom_min_empty (atoms : List Atom) (f : Atom → List Char)
    (value rn an : List Char) (pick : List Nat) (h : select atoms f value = []) :
    replace_atom atoms f value rn an 0 pick = .error .minEmptyError := by
  simp only [replace_atom, h]
  rw [if_pos (by simp)]
  rfl

/-! ### The claims -/

/-- C1: for every length `n`, every list of distinct moved indices drawn from
`0..n-1` and every anchor with `0 ≤ anchor ≤ n`, `reorder` yields exactly the
indices below the anchor not moved (in ascending order, being a filter of
`range n`), then the moved indices in the given order, then the indices at or
above the anchor not moved (ascending); the output is a permutation of
`0..n-1`, and with no moved indices it is the identity permutation. -/
theorem c1_reorder (n : Nat) (moved : List Nat) (anchor : Nat)
    (hnd : moved.Nodup) (hmem : ∀ i ∈ moved, i < n) (hanchor : anchor ≤ n) :
    reorder n moved anchor =
      (List.range n).filter (fun i => decide (i < anchor ∧ i ∉ moved)) ++ moved ++
        (List.range n).filter (fun i => decide (anchor ≤ i ∧ i ∉ moved)) ∧
    ((List.range n).filter (fun i => decide (i < anchor ∧ i ∉ moved))).Pairwise (· < ·) ∧
    ((List.range n).filter (fun i => decide (anchor ≤ i ∧ i ∉ moved))).Pairwise (· < ·) ∧
    (reorder n moved anchor).Perm (List.range n) ∧
    (moved = [] → reorder n moved anchor = List.range n) := by
  refine ⟨reorder_eq_filters moved hanchor,
    List.Pairwise.sublist (List.filter_sublist _) (List.pairwise_lt_range n),
    List.Pairwise.sublist (List.filter_sublist _) (List.pairwise_lt_range n),
    reorder_perm hnd hmem hanchor, ?_⟩
  intro h
  subst h
  exact reorder_nil n anchor hanchor

theorem c1_reorder_witness :
    reorder 5 [3, 1] 1 = [0, 3, 1, 2, 4] ∧ (reorder 5 [3, 1] 1).Perm (List.range 5) := by
  have h := c1_reorder 5 [3, 1] 1 (by decide) (by decide) (by decide)
  exact ⟨by decide, h.2.2.2.1⟩

/-- C2: `renumber` walks the list once; each output `atomid` is the 1-based
position mod 100000; each output `resid` is the running counter mod 100000,
where the counter (transcribed by `renumResids` from counter 0 and tracker 0)
increments exactly when the original `resid` differs from the tracked one;
consequently consecutive output `resid`s grow by 0 or 1 except at the
99999→0 wraparound, and output residue boundaries coincide exactly with
original-`resid` run boundaries in the traversal order. -/
theorem c2_renumber (atoms : List Atom) :
    (renumber atoms).length = atoms.length ∧
    ((renumber atoms).map (fun a => a.atomid) =
      (List.range' 1 atoms.length).map (fun p => ((p % 100000 : Nat) : Int))) ∧
    ((renumber atoms).map (fun a => a.resid) =
      (renumResids 0 0 (atoms.map (fun a => a.resid))).map
        (fun c => ((c % 100000 : Nat) : Int))) ∧
    (∀ k, k + 1 < atoms.length →
      (((renumber atoms).getD (k + 1) default).resid =
          ((renumber atoms).getD k default).resid ↔
        (atoms.getD (k + 1) default).resid = (atoms.getD k default).resid)) ∧
    (∀ k, k + 1 < atoms.length →
      ((renumber atoms).getD (k + 1) default).resid =
          ((renumber atoms).getD k default).resid ∨
        ((renumber atoms).getD (k + 1) default).resid =
          ((renumber atoms).getD k default).resid + 1 ∨
        (((renumber atoms).getD k default).resid = 99999 ∧
          ((renumber atoms).getD (k + 1) default).resid = 0)) := by
  have hmapRes := renumberAux_resids atoms 0 0 1
  refine ⟨renumberAux_length atoms 0 0 1, renumberAux_atomids atoms 0 0 1, hmapRes, ?_, ?_⟩
  · intro k hk1
    have hk : k < atoms.length := by omega
    have hstep := renumResids_getD_succ (atoms.map (fun a => a.resid)) 0 0 k
      (by rw [List.length_map]; exact hk1)
    rw [renumber_resid_getD atoms (k + 1) hk1, renumber_resid_getD atoms k hk,
      ← orig_resid_getD atoms (k + 1) hk1, ← orig_resid_getD atoms k hk]
    by_cases hsame : (atoms.map (fun a => a.resid)).getD (k + 1) 0 =
        (atoms.map (fun a => a.resid)).getD k 0
    · rw [if_pos hsame] at hstep
      rw [hstep]
      exact iff_of_true rfl hsame
    · rw [if_neg hsame] at hstep
      rw [hstep]
      refine iff_of_false ?_ hsame
      intro hcast
      omega
  · intro k hk1
    have hk : k < atoms.length := by omega
    have hstep := renumResids_getD_succ (atoms.map (fun a => a.resid)) 0 0 k
      (by rw [List.length_map]; exact hk1)
    rw [renumber_resid_getD atoms (k + 1) hk1, renumber_resid_getD atoms k hk]
    by_cases hsame : (atoms.map (fun a => a.resid)).getD (k + 1) 0 =
        (atoms.map (fun a => a.resid)).getD k 0
    · rw [if_pos hsame] at hstep
      rw [hstep]
      left
      rfl
    · rw [if_neg hsame] at hstep
      rw [hstep]
      omega

theorem c2_renumber_witness :
    (renumber atomsC3).map (fun a => a.atomid) =
      (List.range' 1 atomsC3.length).map (fun p => ((p % 100000 : Nat) : Int)) ∧
    (renumber atomsC3).map (fun a => a.resid) = [1, 1, 1] := by
  exact ⟨(c2_renumber atomsC3).2.1, by decide⟩

/-- C10: whenever a traversal prefix of the atoms all carry original `resid`
0 — in particular when the first atom does — the residue counter never
increments on that prefix (0 collides with the sentinel tracker value), so
every atom of the prefix is assigned output `resid` 0 and the output
numbering starts at 0 rather than 1. -/
theorem c10_resid_zero_sentinel (atoms : List Atom) (k : Nat) (hk : k < atoms.length)
    (hzero : ∀ j, j ≤ k → (atoms.getD j default).resid = 0) :
    ((renumber atoms).getD k default).resid = 0 := by
  rw [renumber_resid_getD atoms k hk]
  have hzero' : ∀ j, j ≤ k → (atoms.map (fun a => a.resid)).getD j 0 = 0 := by
    intro j hj
    rw [orig_resid_getD atoms j (by omega)]
    exact hzero j hj
  rw [renumResids_prefix_const (atoms.map (fun a => a.resid)) 0 0 k
    (by rw [List.length_map]; exact hk) hzero']
  rfl

theorem c10_resid_zero_sentinel_witness :
    (((renumber [⟨0, [], [], 7, ⟨0, 0⟩, ⟨0, 0⟩, ⟨0, 0⟩⟩,
        ⟨0, [], [], 8, ⟨0, 0⟩, ⟨0, 0⟩, ⟨0, 0⟩⟩,
        ⟨2, [], [], 9, ⟨0, 0⟩, ⟨0, 0⟩, ⟨0, 0⟩⟩]).getD 1 default).resid = 0) ∧
    (((renumber [⟨0, [], [], 7, ⟨0, 0⟩, ⟨0, 0⟩, ⟨0, 0⟩⟩,
        ⟨0, [], [], 8, ⟨0, 0⟩, ⟨0, 0⟩, ⟨0, 0⟩⟩,
        ⟨2, [], [], 9, ⟨0, 0⟩, ⟨0, 0⟩, ⟨0, 0⟩⟩]).getD 2 default).resid = 1) := by
  refine ⟨c10_resid_zero_sentinel _ 1 (by decide) ?_, by decide⟩
  intro j hj
  interval_cases j <;> decide

/-- C8: the mutator overwrites exactly the `resname` and `atom_name` fields at
the given (in-range) indices — the record-update form shows `resid`, `atomid`
and the coordinates of those atoms unchanged — and leaves every atom at an
index outside the set entirely unchanged; the length is preserved. -/
theorem c8_alter_atoms (atoms : List Atom) (indices : List Nat) (rn an : List Char)
    (hrange : ∀ i ∈ indices, i < atoms.length) :
    (alter_atoms atoms indices rn an).length = atoms.length ∧
    (∀ j ∈ indices,
      (alter_atoms atoms indices rn an).getD j default =
        { atoms.getD j default with resname := rn, atom_name := an }) ∧
    (∀ j, j ∉ indices →
      (alter_atoms atoms indices rn an).getD j default = atoms.getD j default) := by
  obtain ⟨hl, hnot, hin⟩ := alter_atoms_spec indices atoms rn an
  exact ⟨hl, fun j hj => hin j hj (hrange j hj), hnot⟩

theorem c8_alter_atoms_witness :
    (alter_atoms atomsC3 [1] "ION".toList "NA".toList).getD 1 default =
      { atomsC3.getD 1 default with resname := "ION".toList, atom_name := "NA".toList } ∧
    (alter_atoms atomsC3 [1] "ION".toList "NA".toList).getD 0 default =
      atomsC3.getD 0 default := by
  have h := c8_alter_atoms atomsC3 [1] "ION".toList "NA".toList (by decide)
  exact ⟨h.2.1 1 (by decide), h.2.2 0 (by decide)⟩

/-- C9: when no atom matches the selection criterion, `replace_atom` fails
(the `min` of the empty candidate list raises) rather than returning the
atom list unchanged, even with substitution count 0 where sampling itself
succeeds. -/
theorem c9_empty_candidates (atoms : List Atom) (f : Atom → List Char)
    (value rn an : List Char) (pick : List Nat)
    (h : select atoms f value = []) :
    replace_atom atoms f value rn an 0 pick = .error .minEmptyError ∧
      ∀ out, replace_atom atoms f value rn an 0 pick ≠ .ok out := by
  have he := replace_atom_min_empty atoms f value rn an pick h
  refine ⟨he, ?_⟩
  intro out hcon
  rw [he] at hcon
  exact Except.noConfusion hcon

theorem c9_empty_candidates_witness :
    select atomsC3 (fun a => a.resname) "XYZ".toList = [] ∧
    replace_atom atomsC3 (fun a => a.resname) "XYZ".toList "ION".toList "NA".toList 0 [] =
      .error .minEmptyError := by
  refine ⟨by decide, ?_⟩
  exact (c9_empty_candidates atomsC3 (fun a => a.resname) "XYZ".toList "ION".toList
    "NA".toList [] (by decide)).1

/-- C7: any outcome the Sampler can return for `k` from the candidate list
consists of exactly `k` distinct elements drawn from it; an outcome exists
whenever `k` does not exceed the candidate count (in particular for `k` equal
to it, and then the subsequent mutation relabels every candidate); and
requesting more than the candidate count makes `replace_atom` fail with the
sampling error. -/
theorem c7_sampler (atoms : List Atom) (f : Atom → List Char) (value rn an : List Char)
    (k : Nat) (pick : List Nat) :
    (sampleSpec (select atoms f value) k pick →
      pick.length = k ∧ pick.Nodup ∧ ∀ i ∈ pick, i ∈ select atoms f value) ∧
    (k ≤ (select atoms f value).length →
      sampleSpec (select atoms f value) k ((select atoms f value).take k)) ∧
    (k = (select atoms f value).length → sampleSpec (select atoms f value) k pick →
      ∀ i ∈ select atoms f value,
        ((alter_atoms atoms pick rn an).getD i default).resname = rn ∧
        ((alter_atoms atoms pick rn an).getD i default).atom_name = an) ∧
    ((select atoms f value).length < k →
      replace_atom atoms f value rn an k pick = .error .sampleError) := by
  refine ⟨fun h => h, sampleSpec_take _ k (select_nodup atoms f value), ?_,
    fun h => replace_atom_sample_error h⟩
  intro hk hspec i hi
  have hpick : i ∈ pick := by
    subst hk
    exact sampleSpec_full (select_nodup atoms f value) hspec i hi
  have hlen : i < atoms.length := ((select_mem atoms f value i).mp hi).1
  have := (alter_atoms_spec pick atoms rn an).2.2 i hpick hlen
  rw [this]
  exact ⟨rfl, rfl⟩

theorem c7_sampler_witness :
    sampleSpec (select atomsC3 (fun a => a.resname) "SOL".toList) 3
      ((select atomsC3 (fun a => a.resname) "SOL".toList).take 3) ∧
    replace_atom atomsC3 (fun a => a.resname) "SOL".toList "ION".toList "NA".toList 4 [] =
      .error .sampleError := by
  have h := c7_sampler atomsC3 (fun a => a.resname) "SOL".toList "ION".toList "NA".toList
  exact ⟨(h 3 []).2.1 (by decide), (h 4 []).2.2.2 (by decide)⟩

/-- C4: on a title line, an (untrusted, arbitrary) atom-count line, `N`
well-formed non-blank atom lines, a non-blank footer line and optional
blank-line-headed trailing content, the reader returns the title verbatim,
decodes exactly the `N` atom lines, and returns the footer as the last line
consumed before the blank line or end of input; trailing content is ignored. -/
theorem c4_reader (title cnt footer : List Char) (atomLines trailing : List (List Char))
    (hdec : ∀ l ∈ atomLines, (decode_atom l).isSome = true)
    (hnb : ∀ l ∈ atomLines, pyStrip l ≠ [])
    (hfoot : pyStrip footer ≠ [])
    (htr : trailing = [] ∨ ∃ b rest, trailing = b :: rest ∧ pyStrip b = []) :
    ∃ ats : List Atom,
      read_gro (title :: cnt :: (atomLines ++ footer :: trailing)) = .ok (title, ats, footer) ∧
      ats.length = atomLines.length ∧
      ats.map some = atomLines.map decode_atom := by
  obtain ⟨ats, hok, hmap⟩ := read_gro_spec title cnt footer atomLines trailing hdec hnb hfoot htr
  have hlen : ats.length = atomLines.length := by
    have := congrArg List.length hmap
    simpa using this
  exact ⟨ats, hok, hlen, hmap⟩

theorem c4_reader_witness :
    (∀ l ∈ [solLine1, solLine2], (decode_atom l).isSome = true) ∧
    ∃ ats : List Atom,
      read_gro ("t\n".toList :: "99\n".toList ::
          ([solLine1, solLine2] ++ "   1.0   1.0   1.0\n".toList ::
            ["\n".toList, "junk\n".toList])) =
        .ok ("t\n".toList, ats, "   1.0   1.0   1.0\n".toList) ∧
      ats.length = [solLine1, solLine2].length ∧
      ats.map some = [solLine1, solLine2].map decode_atom := by
  refine ⟨by decide, ?_⟩
  exact c4_reader "t\n".toList "99\n".toList "   1.0   1.0   1.0\n".toList
    [solLine1, solLine2] ["\n".toList, "junk\n".toList]
    (by decide) (by decide) (by decide)
    (Or.inr ⟨"\n".toList, ["junk\n".toList], rfl, by decide⟩)

/-- C5 counterexample: an input with a single line — "insufficient lines" in
the claim's sense — makes the reader fail with `StopIteration` (a bare `next`
on the exhausted iterator), which is not `FormatError`; the claim that every
malformed input raises `FormatError` is therefore false on the code. -/
theorem c5_counterexample :
    read_gro ["only one line\n".toList] = .error .stopIteration ∧
      ReadError.stopIteration ≠ ReadError.formatError := by
  exact ⟨by decide, by decide⟩

/-- C5 (amended): the reader raises `StopIteration` exactly when the input has
fewer than three lines (the three bare `next` calls), and raises `FormatError`
when an atom line cannot be decoded. -/
theorem c5_amended_errors :
    (∀ lines : List (List Char),
      read_gro lines = .error .stopIteration ↔ lines.length < 3) ∧
    (∀ t c bad footer : List Char, decode_atom bad = none → pyStrip footer ≠ [] →
      read_gro [t, c, bad, footer] = .error .formatError) :=
  ⟨read_gro_stop_iff, read_gro_bad_atom⟩

theorem c5_amended_errors_witness :
    decode_atom "  abc bad line\n".toList = none ∧
    read_gro ["t\n".toList, "1\n".toList, "  abc bad line\n".toList,
      "   1.0   1.0   1.0\n".toList] = .error .formatError := by
  refine ⟨by decide, ?_⟩
  exact c5_amended_errors.2 "t\n".toList "1\n".toList "  abc bad line\n".toList
    "   1.0   1.0   1.0\n".toList (by decide) (by decide)

/-- C6: every atom line in canonical fixed-width form — that is, every line the
writer produces from a record whose rendered fields fit their columns, with
exactly three decimal places on each coordinate — decodes successfully, and
re-encoding the decoded record reproduces the original line byte for byte. -/
theorem c6_roundtrip (l : List Char) (h : ∃ r, wellFormedAtom r ∧ l = encode_atom r) :
    (decode_atom l).map encode_atom = some l := by
  obtain ⟨r, hw, rfl⟩ := h
  rw [decode_encode hw, Option.map_some']

theorem c6_roundtrip_witness :
    (∃ r, wellFormedAtom r ∧ solLine1 = encode_atom r) ∧
    (decode_atom solLine1).map encode_atom = some solLine1 := by
  have hex : ∃ r, wellFormedAtom r ∧ solLine1 = encode_atom r :=
    ⟨⟨1, "SOL".toList, "OW".toList, 1, ⟨0, 3⟩, ⟨0, 3⟩, ⟨0, 3⟩⟩, by decide, by decide⟩
  exact ⟨hex, c6_roundtrip solLine1 hex⟩

/-- C3: on the three-atom all-`SOL` input with `resid`s `[1,1,1]` and `atomid`s
`[1,2,3]`, for every possible sampled atom, replacing 1 atom by
`ION`/`NA` yields 3 atoms of which exactly one is `ION`/`NA`, all output
`resid`s equal 1, output `atomid`s are `1,2,3` in the new order, and the
title and footer lines pass through the pipeline unchanged. -/
theorem c3_end_to_end (pick : List Nat)
    (hs : sampleSpec (select atomsC3 (fun a => a.resname) "SOL".toList) 1 pick) :
    ((replace_atom atomsC3 (fun a => a.resname) "SOL".toList "ION".toList "NA".toList
        1 pick).toOption.map (fun res =>
          (res.length,
           (res.filter (fun a =>
             decide (a.resname = "ION".toList ∧ a.atom_name = "NA".toList))).length,
           res.map (fun a => a.resid),
           res.map (fun a => a.atomid)))) =
      some (3, 1, ([1, 1, 1] : List Int), ([1, 2, 3] : List Int)) ∧
    (pipeline inputC3 "SOL".toList "ION".toList "NA".toList 1 pick).map
        (fun out => (out.head?, out.getLast?, out.length)) =
      some (some "Water\n".toList, some "   1.86206   1.86206   1.86206\n".toList, 6) := by
  obtain ⟨hlen, -, hsub⟩ := hs
  have hsel : select atomsC3 (fun a => a.resname) "SOL".toList = [0, 1, 2] := by decide
  match pick, hlen with
  | [i], _ =>
    have hi : i ∈ ([0, 1, 2] : List Nat) := hsel ▸ hsub i (List.mem_cons_self i [])
    simp only [List.mem_cons, List.mem_singleton, List.not_mem_nil, or_false] at hi
    rcases hi with rfl | rfl | rfl
    · exact ⟨by decide, by decide⟩
    · exact ⟨by decide, by decide⟩
    · exact ⟨by decide, by decide⟩

theorem c3_end_to_end_witness :
    sampleSpec (select atomsC3 (fun a => a.resname) "SOL".toList) 1 [2] ∧
    (pipeline inputC3 "SOL".toList "ION".toList "NA".toList 1 [2]).map
        (fun out => (out.head?, out.getLast?, out.length)) =
      some (some "Water\n".toList, some "   1.86206   1.86206   1.86206\n".toList, 6) := by
  have hspec : sampleSpec (select atomsC3 (fun a => a.resname) "SOL".toList) 1 [2] := by
    refine ⟨by decide, by decide, ?_⟩
    intro i hi
    rw [List.mem_singleton] at hi
    subst hi
    decide
  exact ⟨hspec, (c3_end_to_end [2] hspec).2⟩

end ReplaceAtoms
